import Mathlib

/-!
Verification of the infoclash backend core: a shallow embedding of the
ingestion/write-behind-cache pipeline and the merge/archive engine, translated
from the Go sources (`collector.go`, `main.go` / `writeCacheToDB`,
`database.go` / `BulkUpsertConnections`, `handlers.go` /
`mergeAndArchiveConnections`, `replaceHostHandler`).

Modelling conventions:
* Go strings are `List Char` (`Str`); `strings.HasSuffix` is `List.isSuffixOf`.
* Go `uint64` counters are `Nat`; the only arithmetic performed on them by the
  code is the `+=` accumulation in the merge engine, which wraps modulo `2^64`
  (`add64`).  Values held in a `uint64` are always `< 2^64`.
* `time.Time` values are their Unix-seconds `Int` (every time handled by the
  code is constructed with `time.Unix(sec, 0)` or serialised with `.Unix()`).
  Go's `Time.Truncate` rounds down relative to the zero time (January 1,
  year 1), which lies `epochAbs = 62135596800` seconds before the Unix epoch;
  `bucketStart` reproduces that, including the `d <= 0 → t` special case.
* The SQLite `connections` table is a `List Row`; a transaction either applies
  the whole batch (success path, the function itself) or leaves the table
  unchanged (rollback), which callers select with a `Bool`.
* `sync.Map` is an association list; its unspecified iteration order is fixed
  as list order, and `Store` is modelled as remove-then-append (`put`), which
  has the same contents as an in-place update.
-/

namespace Infoclash

/-- Go strings, as lists of characters. -/
abbrev Str := List Char

/-- Convenience coercion from Lean string literals. -/
def str (s : String) : Str := s.data

/-- `2^64`, the modulus of Go's `uint64` arithmetic. -/
def M64 : Nat := 2 ^ 64

/-- Go `uint64` addition: wraps modulo `2^64`. -/
def add64 (a b : Nat) : Nat := (a + b) % M64

/-- One connection as delivered by the Clash API (`models.go`, `Connection` +
the `Metadata` fields the core consumes). -/
structure Connection where
  id : Str
  sourceIP : Str
  host : Str
  remoteDestination : Str
  upload : Nat
  download : Nat
  start : Int
  chains : List Str
deriving DecidableEq, Repr

instance : Inhabited Connection := ⟨⟨[], [], [], [], 0, 0, 0, []⟩⟩

/-- One row of the SQLite `connections` table (`database.go`, `InitDB`). -/
structure Row where
  id : Str
  sourceIP : Str
  host : Str
  upload : Nat
  download : Nat
  start : Int
  chain : Str
deriving DecidableEq, Repr

instance : Inhabited Row := ⟨⟨[], [], [], 0, 0, 0, []⟩⟩

/-- One row of `connections_archive` (`database.go`, `InitArchiveDB`):
a `Row` plus the `archived_at` timestamp. -/
structure ArchiveRow where
  row : Row
  archivedAt : Int
deriving DecidableEq, Repr

/-! ## Snapshot normalizer (`collector.go`, `GetClashConnections`, data-cleaning loop) -/

/-- `strings.HasSuffix s suffix`. -/
def hasSuffix (s suffix : Str) : Bool := suffix.isSuffixOf s

/-- Step 1 of the cleaning loop: an empty `Metadata.Host` is filled from
`Metadata.RemoteDestination`. -/
def fillHost (c : Connection) : Connection :=
  if c.host = [] then { c with host := c.remoteDestination } else c

/-- Step 2 of the cleaning loop: the whitelist is scanned in order and the
first suffix of the (already filled) host replaces the host outright. -/
def applyWhitelist (wl : List Str) (h : Str) : Str :=
  match wl.find? (fun s => hasSuffix h s) with
  | some s => s
  | none => h

/-- Normalization of a single connection: fallback fill, then suffix collapse. -/
def normalizeConn (wl : List Str) (c : Connection) : Connection :=
  let c := fillHost c
  { c with host := applyWhitelist wl c.host }

/-- The whole cleaning loop of `GetClashConnections` over a snapshot. -/
def normalizeConnections (wl : List Str) (snap : List Connection) : List Connection :=
  snap.map (normalizeConn wl)

/-! ## Live cache (`main.go`, `connectionsCache : sync.Map`) -/

/-- The `sync.Map` keyed by connection id. -/
abbrev Cache := List (Str × Connection)

/-- `connectionsCache.Store id v`: unconditional overwrite.  Content-equal to
an in-place update; iteration order of `sync.Map` is unspecified anyway. -/
def put (c : Cache) (id : Str) (v : Connection) : Cache :=
  c.filter (fun p => p.1 ≠ id) ++ [(id, v)]

/-- The values collected by `connectionsCache.Range` in `writeCacheToDB`. -/
def cacheValues (c : Cache) : List Connection := c.map (·.2)

/-! ## Batched upsert (`database.go`, `BulkUpsertConnections`) -/

/-- `conn.Chains[len-1]`, or `""` when the chain list is empty. -/
def lastChain (chains : List Str) : Str :=
  match chains with
  | [] => []
  | c :: cs => (c :: cs).getLast (by simp)

/-- The row bound by the upsert statement for one connection. -/
def rowOf (c : Connection) : Row :=
  ⟨c.id, c.sourceIP, c.host, c.upload, c.download, c.start, lastChain c.chains⟩

/-- `SELECT ... WHERE id = ?` on the model table (first row with that id). -/
def findRow (id : Str) (store : List Row) : Option Row :=
  store.find? (fun r => r.id = id)

/-- One execution of the upsert statement:
`INSERT ... ON CONFLICT(id) DO UPDATE SET upload = excluded.upload,
download = excluded.download`. -/
def upsertRow (store : List Row) (r : Row) : List Row :=
  if store.any (fun x => x.id = r.id) then
    store.map (fun x =>
      if x.id = r.id then { x with upload := r.upload, download := r.download } else x)
  else store ++ [r]

/-- `BulkUpsertConnections` success path: the loop skips empty-host records and
executes the upsert for the rest; the surrounding transaction commits. -/
def BulkUpsertConnections (store : List Row) (conns : List Connection) : List Row :=
  conns.foldl (fun st c => if c.host = [] then st else upsertRow st (rowOf c)) store

/-! ## Flusher (`main.go`, `writeCacheToDB`) -/

/-- State after a `writeCacheToDB` call. -/
structure FlushResult where
  cache : Cache
  store : List Row
deriving DecidableEq, Repr

/-- `writeCacheToDB`: collect all cache values; if none, return; otherwise run
`BulkUpsertConnections` as one transaction.  `ok` says whether that transaction
commits (any mid-batch statement error rolls the whole batch back).  Only on
success is the cache then emptied (`Range` + `Delete`); on failure the error is
logged and the cache is left untouched. -/
def writeCacheToDB (ok : Bool) (cache : Cache) (store : List Row) : FlushResult :=
  let connsToSave := cacheValues cache
  if connsToSave = [] then ⟨cache, store⟩
  else if ok then ⟨[], BulkUpsertConnections store connsToSave⟩
  else ⟨cache, store⟩

/-! ## Flush interleaved with a concurrent `put`

`writeCacheToDB` is not atomic: it collects, persists, and (on success) clears
in distinct phases, while the poller goroutine may `Store` concurrently.  The
interleavings are captured by the point at which a single racing `put` lands
relative to those phases. -/

/-- Where a racing `put(id, v)` lands relative to the phases of
`writeCacheToDB`. -/
inductive PutPoint where
  | beforeCollect
  | betweenCollectAndPersist
  | betweenPersistAndClear
  | afterClear
deriving DecidableEq, Repr

/-- `writeCacheToDB` with one concurrent `put cache id v` executed at point
`p`.  Returns (drained values, cache afterwards, store afterwards).  On the
success path the clear phase (`Range` + `Delete`) deletes every key present in
the cache at clear time, drained or not. -/
def flushWithPut (p : PutPoint) (ok : Bool) (cache : Cache) (store : List Row)
    (id : Str) (v : Connection) : List Connection × Cache × List Row :=
  let c1 := if p = .beforeCollect then put cache id v else cache
  let drained := cacheValues c1
  let c2 := if p = .betweenCollectAndPersist then put c1 id v else c1
  if drained = [] then
    let c3 := if p = .betweenPersistAndClear ∨ p = .afterClear then put c2 id v else c2
    (drained, c3, store)
  else
    let store1 := if ok then BulkUpsertConnections store drained else store
    let c3 := if p = .betweenPersistAndClear then put c2 id v else c2
    let c4 := if ok then [] else c3
    let c5 := if p = .afterClear then put c4 id v else c4
    (drained, c5, store1)

/-! ## Merge/archive engine (`handlers.go`, `mergeAndArchiveConnections`) -/

/-- Seconds from Go's zero time (Jan 1, year 1 UTC) to the Unix epoch. -/
def epochAbs : Int := 62135596800

/-- `t.Truncate(interval * time.Minute)` on a whole-second time `t` (Unix
seconds): rounds down to a multiple of `interval` minutes measured from Go's
zero time; `Truncate` returns `t` unchanged for a non-positive duration. -/
def bucketStart (interval : Int) (t : Int) : Int :=
  if interval ≤ 0 then t else t - (t + epochAbs) % (interval * 60)

/-- The group key `host + "-" + timeSlot` of the merge loop, modelled as the
pair (the textual key is injective in the pair for the representable years). -/
def keyOf (interval : Int) (r : Row) : Str × Int :=
  (r.host, bucketStart interval r.start)

/-- `existing.Upload += conn.Upload; existing.Download += conn.Download`:
`uint64` accumulation onto the group representative. -/
def addUD (g r : Row) : Row :=
  { g with upload := add64 g.upload r.upload, download := add64 g.download r.download }

/-- One step of the grouping loop on the `mergedConnections` map: accumulate
into the existing entry for the key, or create the entry from the record
itself (first-seen member becomes the representative). -/
def insertGroup (interval : Int) (gs : List ((Str × Int) × Row)) (r : Row) :
    List ((Str × Int) × Row) :=
  match gs with
  | [] => [(keyOf interval r, r)]
  | (k, g) :: rest =>
    if k = keyOf interval r then (k, addUD g r) :: rest
    else (k, g) :: insertGroup interval rest r

/-- The whole grouping loop over the records to merge. -/
def mergedGroups (interval : Int) (rows : List Row) : List ((Str × Int) × Row) :=
  rows.foldl (insertGroup interval) []

/-- Lookup of a group by key. -/
def findGroup (k : Str × Int) (gs : List ((Str × Int) × Row)) : Option Row :=
  (gs.find? (fun g => g.1 = k)).map (·.2)

/-- `SELECT ... WHERE start >= ? AND start <= ?`. -/
def rangeFilter (store : List Row) (startDate endDate : Int) : List Row :=
  store.filter (fun r => startDate ≤ r.start ∧ r.start ≤ endDate)

/-- `DELETE FROM connections WHERE id = ?` for every record in the range. -/
def deleteByIds (store : List Row) (rows : List Row) : List Row :=
  rows.foldl (fun st r => st.filter (fun x => x.id ≠ r.id)) store

/-- The rows inserted back by the merged-data loop: one row per group, which
is the group's accumulated representative under a freshly generated id. -/
def mergedRows (freshIds : Nat → Str) (interval : Int) (rows : List Row) : List Row :=
  (mergedGroups interval rows).enum.map (fun ig => { ig.2.2 with id := freshIds ig.1 })

/-- `mergeAndArchiveConnections` success path.  `freshIds i` is the
`uuid.New().String()` generated for the `i`-th merged group, `now` the shared
`archived_at` timestamp.  Returns the `connections` table and the
`connections_archive` table after both transactions commit.  (Rows are read
back with `Chains = [chain]`, and both the archive insert and the merged
insert then bind `Chains[0]`, i.e. the stored `chain` of the representative.) -/
def mergeAndArchiveConnections (freshIds : Nat → Str) (now : Int)
    (store : List Row) (archive : List ArchiveRow)
    (startDate endDate : Int) (interval : Int) : List Row × List ArchiveRow :=
  let connectionsToMerge := rangeFilter store startDate endDate
  if connectionsToMerge = [] then (store, archive)
  else
    let archive1 := archive ++ connectionsToMerge.map (fun r => ⟨r, now⟩)
    let store1 := deleteByIds store connectionsToMerge
    (store1 ++ mergedRows freshIds interval connectionsToMerge, archive1)

/-! ## Host replacement (`handlers.go`, `replaceHostHandler`) -/

/-- SQLite's default ASCII case folding: `A`–`Z` fold to lower case, every
other character is left alone. -/
def charFoldAscii (c : Char) : Char :=
  if 'A' ≤ c ∧ c ≤ 'Z' then Char.ofNat (c.toNat + 32) else c

/-- SQLite `LIKE` (default: no ESCAPE, ASCII case-insensitive): `%` matches
any sequence, `_` any single character, anything else folds and compares. -/
def likeMatch : Str → Str → Bool
  | [], t => t.isEmpty
  | p :: ps, t =>
    if p = '%' then (t.tails).any (fun s => likeMatch ps s)
    else if p = '_' then
      match t with
      | [] => false
      | _ :: ts => likeMatch ps ts
    else
      match t with
      | [] => false
      | c :: ts => charFoldAscii p = charFoldAscii c && likeMatch ps ts

/-- The WHERE clause `host LIKE '%.' || suffix OR host = suffix`. -/
def replaceHostMatches (suffix : Str) (r : Row) : Bool :=
  likeMatch ('%' :: '.' :: suffix) r.host || r.host = suffix

/-- The `UPDATE connections SET host = ? WHERE host LIKE ? OR host = ?`
statement: the updated table and `RowsAffected()`. -/
def replaceHostUpdate (store : List Row) (suffix : Str) : List Row × Nat :=
  (store.map (fun r => if replaceHostMatches suffix r then { r with host := suffix } else r),
   (store.filter (replaceHostMatches suffix)).length)

/-- `replaceHostHandler` after JSON decoding: an empty suffix is rejected with
HTTP 400 before any store mutation (`none`); otherwise the update runs. -/
def replaceHostHandler (store : List Row) (suffix : Str) : Option (List Row × Nat) :=
  if suffix = [] then none else some (replaceHostUpdate store suffix)

/-! ## General list helpers -/

/-- `find?` skips a block of elements on which the predicate fails. -/
theorem find?_append_of_none {α : Type} (p : α → Bool) (l1 l2 : List α)
    (h : ∀ y ∈ l1, p y = false) : (l1 ++ l2).find? p = l2.find? p := by
  induction l1 with
  | nil => rfl
  | cons a l ih =>
    simp only [List.cons_append, List.find?_cons, h a (by simp)]
    exact ih (fun y hy => h y (by simp [hy]))

/-- First-match characterization of `find?`. -/
theorem find?_char {α : Type} (p : α → Bool) (l : List α) :
    (l.find? p = none ∧ ∀ x ∈ l, p x = false) ∨
    (∃ l1 x l2, l = l1 ++ x :: l2 ∧ l.find? p = some x ∧ p x = true ∧
      ∀ y ∈ l1, p y = false) := by
  induction l with
  | nil => exact Or.inl ⟨rfl, by simp⟩
  | cons a l ih =>
    by_cases ha : p a = true
    · refine Or.inr ⟨[], a, l, by simp, ?_, ha, by simp⟩
      simp [List.find?_cons, ha]
    · have ha' : p a = false := by simpa using ha
      rcases ih with ⟨hn, hall⟩ | ⟨l1, x, l2, hl, hf, hx, hfirst⟩
      · refine Or.inl ⟨?_, ?_⟩
        · simp [List.find?_cons, ha', hn]
        · intro x hx; rcases List.mem_cons.1 hx with rfl | hx
          · exact ha'
          · exact hall x hx
      · refine Or.inr ⟨a :: l1, x, l2, by simp [hl], ?_, hx, ?_⟩
        · simp [List.find?_cons, ha', hf]
        · intro y hy; rcases List.mem_cons.1 hy with rfl | hy
          · exact ha'
          · exact hfirst y hy

/-- An element of an enumerated list is an element of the list. -/
theorem snd_mem_of_mem_enum {α : Type} {l : List α} {ia : Nat × α}
    (h : ia ∈ l.enum) : ia.2 ∈ l := by
  have := List.enum_map_snd l
  have : ia.2 ∈ l.enum.map Prod.snd := List.mem_map_of_mem Prod.snd h
  simpa [List.enum_map_snd] using this

/-- The index of an element of an enumerated list is below the length. -/
theorem fst_lt_of_mem_enum {α : Type} {l : List α} {ia : Nat × α}
    (h : ia ∈ l.enum) : ia.1 < l.length := by
  have := List.fst_lt_add_of_mem_enumFrom (n := 0) (by simpa using h)
  simpa using this

/-! ## Cache and upsert lemmas -/

/-- After a `put`, the stored entry is present. -/
theorem mem_put (c : Cache) (id : Str) (v : Connection) : (id, v) ∈ put c id v := by
  simp [put]

/-- Two successive `put`s to the same key: the second one wins. -/
theorem put_put (c : Cache) (id : Str) (r1 r2 : Connection) :
    put (put c id r1) id r2 = c.filter (fun p => p.1 ≠ id) ++ [(id, r2)] := by
  simp [put, List.filter_append, List.filter_filter]

/-- Updating all rows of a given id commutes with `findRow`, for updates that
keep the id. -/
theorem findRow_map_update (store : List Row) (id : Str) (f : Row → Row)
    (hf : ∀ x, (f x).id = x.id) :
    findRow id (store.map fun x => if x.id = id then f x else x)
      = (findRow id store).map f := by
  induction store with
  | nil => rfl
  | cons y l ih =>
    by_cases hy : y.id = id
    · simp [findRow, List.find?_cons, hy, hf]
    · simp only [List.map_cons, if_neg hy]
      simp [findRow, List.find?_cons, hy] at ih ⊢
      exact ih

/-- The upsert statement leaves the record's totals equal to the bound
values, whether the id was present or not. -/
theorem findRow_upsertRow (store : List Row) (r : Row) :
    ∃ x, findRow r.id (upsertRow store r) = some x ∧
      x.upload = r.upload ∧ x.download = r.download := by
  unfold upsertRow
  by_cases h : store.any (fun x => x.id = r.id) = true
  · rw [if_pos h]
    rcases List.any_eq_true.1 h with ⟨x0, hx0, hid⟩
    have hid' : x0.id = r.id := by simpa using hid
    have hsome : (findRow r.id store).isSome := by
      unfold findRow
      cases hf : store.find? (fun x => x.id = r.id) with
      | none => exact absurd (by simpa using List.find?_eq_none.1 hf x0 hx0) (by simp [hid'])
      | some v => rfl
    rcases Option.isSome_iff_exists.1 hsome with ⟨x1, hx1⟩
    refine ⟨{ x1 with upload := r.upload, download := r.download }, ?_, rfl, rfl⟩
    rw [findRow_map_update store r.id
      (fun x => { x with upload := r.upload, download := r.download }) (fun x => rfl), hx1]
    rfl
  · rw [if_neg h]
    have hnone : findRow r.id store = none := by
      unfold findRow
      refine List.find?_eq_none.2 (fun x hx => ?_)
      intro hc
      exact h (List.any_eq_true.2 ⟨x, hx, hc⟩)
    refine ⟨r, ?_, rfl, rfl⟩
    unfold findRow at hnone ⊢
    rw [find?_append_of_none _ store _ ?_]
    · simp [List.find?_cons]
    · intro y hy
      have := List.find?_eq_none.1 hnone y hy
      simpa using this

/-- Values collected from the cache after appending one entry. -/
theorem cacheValues_append (c : Cache) (e : Str × Connection) :
    cacheValues (c ++ [e]) = cacheValues c ++ [e.2] := by
  simp [cacheValues]

/-- A successful flush of a cache whose last entry is `(id, r)` leaves the
persisted totals of `id` equal to `r`'s. -/
theorem findRow_flush_last (cacheF : Cache) (store : List Row) (id : Str) (r : Connection)
    (hid : r.id = id) (hh : r.host ≠ []) :
    ∃ x, findRow id (writeCacheToDB true (cacheF ++ [(id, r)]) store).store = some x ∧
      x.upload = r.upload ∧ x.download = r.download := by
  have hvals : cacheValues (cacheF ++ [(id, r)]) = cacheValues cacheF ++ [r] :=
    cacheValues_append cacheF (id, r)
  have hne : cacheValues cacheF ++ [r] ≠ [] := by simp
  have hstore : (writeCacheToDB true (cacheF ++ [(id, r)]) store).store
      = BulkUpsertConnections store (cacheValues cacheF ++ [r]) := by
    simp only [writeCacheToDB, hvals]
    rw [if_neg hne]
    simp
  have hbuc : BulkUpsertConnections store (cacheValues cacheF ++ [r])
      = upsertRow (BulkUpsertConnections store (cacheValues cacheF)) (rowOf r) := by
    unfold BulkUpsertConnections
    rw [List.foldl_append]
    simp [if_neg hh]
  rcases findRow_upsertRow (BulkUpsertConnections store (cacheValues cacheF)) (rowOf r)
    with ⟨x, hx, hu, hd⟩
  refine ⟨x, ?_, hu, hd⟩
  rw [hstore, hbuc]
  have : (rowOf r).id = id := hid
  rw [← this]
  exact hx

/-- **C1 (Overwrite-not-add).**  For an id observed twice with cumulative
totals `(u1,d1)` then `(u2,d2)`: the second `connectionsCache.Store` overwrites
the cache entry, and after the batched flush (`writeCacheToDB` /
`BulkUpsertConnections`) the persisted record carries exactly `(u2,d2)` —
whether both observations land in the same flush or in two successive flushes.
The `ON CONFLICT(id) DO UPDATE SET upload = excluded.upload, download =
excluded.download` upsert overwrites, never adds. -/
theorem claim1_overwrite_not_add (cache : Cache) (store : List Row) (id : Str)
    (r1 r2 : Connection) (h1 : r1.id = id) (h2 : r2.id = id) (hh : r2.host ≠ []) :
    ((put (put cache id r1) id r2).find? (fun p => p.1 = id) = some (id, r2)) ∧
    (∃ x, findRow id (writeCacheToDB true (put (put cache id r1) id r2) store).store = some x ∧
      x.upload = r2.upload ∧ x.download = r2.download) ∧
    (∃ x, findRow id (writeCacheToDB true
          (put (writeCacheToDB true (put cache id r1) store).cache id r2)
          (writeCacheToDB true (put cache id r1) store).store).store = some x ∧
      x.upload = r2.upload ∧ x.download = r2.download) := by
  refine ⟨?_, ?_, ?_⟩
  · rw [put_put]
    rw [find?_append_of_none _ _ _ ?_]
    · simp [List.find?_cons]
    · intro y hy
      have := (List.mem_filter.1 hy).2
      simpa using this
  · rw [put_put]
    exact findRow_flush_last _ store id r2 h2 hh
  · have hcache1 : (writeCacheToDB true (put cache id r1) store).cache = [] := by
      unfold put
      simp only [writeCacheToDB, cacheValues_append]
      rw [if_neg (by simp)]
      simp
    rw [hcache1]
    have hput : put ([] : Cache) id r2 = [] ++ [(id, r2)] := by simp [put]
    rw [hput]
    exact findRow_flush_last [] _ id r2 h2 hh

/-- Witness for C1 at a concrete input. -/
theorem claim1_overwrite_not_add_witness :
    ∃ x, findRow (str "a")
        (writeCacheToDB true
          (put (put [] (str "a") ⟨str "a", str "s", str "h", [], 100, 200, 0, []⟩)
            (str "a") ⟨str "a", str "s", str "h", [], 150, 250, 0, []⟩) []).store = some x ∧
      x.upload = 150 ∧ x.download = 250 :=
  (claim1_overwrite_not_add [] [] (str "a")
    ⟨str "a", str "s", str "h", [], 100, 200, 0, []⟩
    ⟨str "a", str "s", str "h", [], 150, 250, 0, []⟩
    rfl rfl (by decide)).2.1

/-- **C7 (Upsert frame).**  When the batched upsert processes a record whose id
is already present, the resulting table is the old one with only `upload` and
`download` of that id replaced — `host`, `sourceIP`, `start` and `chain` keep
their stored values; when the id is absent, a full new row is appended. -/
theorem claim7_upsert_frame (store : List Row) (c : Connection) (hh : c.host ≠ []) :
    ((findRow c.id store).isSome →
      BulkUpsertConnections store [c]
        = store.map (fun y =>
            if y.id = c.id then { y with upload := c.upload, download := c.download } else y)) ∧
    (findRow c.id store = none →
      BulkUpsertConnections store [c] = store ++ [rowOf c]) := by
  have hbuc : BulkUpsertConnections store [c] = upsertRow store (rowOf c) := by
    simp [BulkUpsertConnections, if_neg hh]
  constructor
  · intro hsome
    rcases Option.isSome_iff_exists.1 hsome with ⟨x0, hx0⟩
    have hmem : x0 ∈ store ∧ x0.id = c.id := by
      have h1 := List.find?_some hx0
      have h2 := List.mem_of_find?_eq_some hx0
      exact ⟨h2, by simpa using h1⟩
    have hany : store.any (fun x => x.id = (rowOf c).id) = true :=
      List.any_eq_true.2 ⟨x0, hmem.1, by simpa using hmem.2⟩
    rw [hbuc]
    unfold upsertRow
    rw [if_pos hany]
    rfl
  · intro hnone
    have hany : store.any (fun x => x.id = (rowOf c).id) = false := by
      rw [List.any_eq_false]
      intro x hx
      have := List.find?_eq_none.1 hnone x hx
      simpa using this
    rw [hbuc]
    unfold upsertRow
    rw [if_neg (by simp [hany])]

/-- Witness for C7 at a concrete input (id present). -/
theorem claim7_upsert_frame_witness :
    BulkUpsertConnections [⟨str "a", str "s", str "h", 1, 2, 7, str "ch"⟩]
        [⟨str "a", str "s2", str "h2", [], 10, 20, 9, []⟩]
      = [⟨str "a", str "s", str "h", 1, 2, 7, str "ch"⟩].map (fun y =>
          if y.id = str "a" then { y with upload := 10, download := 20 } else y) :=
  (claim7_upsert_frame [⟨str "a", str "s", str "h", 1, 2, 7, str "ch"⟩]
    ⟨str "a", str "s2", str "h2", [], 10, 20, 9, []⟩ (by decide)).1 (by decide)

/-! ## C3: failed flush -/

/-- A concrete cache holding three records, drained by the C3 flush cycle. -/
def exCacheC3 : Cache :=
  [(str "a", ⟨str "a", str "s", str "h1", [], 1, 1, 0, []⟩),
   (str "b", ⟨str "b", str "s", str "h2", [], 2, 2, 0, []⟩),
   (str "c", ⟨str "c", str "s", str "h3", [], 3, 3, 0, []⟩)]

/-- **C3 counterexample.**  The claim says that after a flush whose persistence
transaction fails, every drained record is absent from BOTH the cache and the
store.  False: `writeCacheToDB` deletes cache entries only after a successful
`BulkUpsertConnections`, so on failure every drained record is still in the
cache. -/
theorem claim3_counterexample :
    ¬ (∀ r ∈ cacheValues exCacheC3,
        r ∉ cacheValues (writeCacheToDB false exCacheC3 []).cache) := by
  decide

/-- **C3 amended.**  If the batched persistence transaction fails, the whole
batch is rolled back (the store is unchanged) and the cache is left untouched:
the drained records remain cached and are retried on the next cycle (the cache
is cleared only on persistence success).  The error is logged (not modelled). -/
theorem claim3_failed_flush_keeps_cache (cache : Cache) (store : List Row) :
    writeCacheToDB false cache store = ⟨cache, store⟩ := by
  simp only [writeCacheToDB]
  split <;> simp

/-! ## C4: drain exclusivity -/

/-- Concrete records for the C4 counterexample. -/
def exConnA : Connection := ⟨str "a", str "s", str "h", [], 1, 2, 0, []⟩

/-- A record `put` concurrently with the flush in the C4 counterexample. -/
def exConnB : Connection := ⟨str "b", str "s", str "h2", [], 3, 4, 0, []⟩

/-- **C4 counterexample.**  A `put` landing between the successful persistence
and the clear phase is deleted by the `Range`+`Delete` loop without having been
in the drain result: the record is in neither the drained batch nor the cache
afterwards. -/
theorem claim4_counterexample :
    ¬ (exConnB ∈ (flushWithPut .betweenPersistAndClear true
          [(str "a", exConnA)] [] (str "b") exConnB).1 ∨
       (str "b", exConnB) ∈ (flushWithPut .betweenPersistAndClear true
          [(str "a", exConnA)] [] (str "b") exConnB).2.1) := by
  decide

/-- The drain result of an interleaved flush is the cache contents at collect
time. -/
theorem flushWithPut_fst (p : PutPoint) (ok : Bool) (cache : Cache) (store : List Row)
    (id : Str) (v : Connection) :
    (flushWithPut p ok cache store id v).1
      = cacheValues (if p = PutPoint.beforeCollect then put cache id v else cache) := by
  simp only [flushWithPut]
  repeat' split
  all_goals rfl

/-- **C4 amended.**  A concurrent `put(id, v)` is never lost when it lands
before the flush's collection or after its clear phase, and never lost at all
when the flush's transaction fails (the cache is then not cleared): in those
schedules `v` is either in the drain result or in the cache afterwards.  (A
`put` landing between collection and the clear of a successful flush is lost —
that is the counterexample.) -/
theorem claim4_drain_exclusivity_outside_window (p : PutPoint) (ok : Bool)
    (cache : Cache) (store : List Row) (id : Str) (v : Connection)
    (h : p = PutPoint.beforeCollect ∨ p = PutPoint.afterClear ∨ ok = false) :
    v ∈ (flushWithPut p ok cache store id v).1 ∨
    (id, v) ∈ (flushWithPut p ok cache store id v).2.1 := by
  rcases h with rfl | rfl | rfl
  · left
    rw [flushWithPut_fst]
    simp [cacheValues, put]
  · right
    simp only [flushWithPut]
    simp only [show (PutPoint.afterClear = PutPoint.beforeCollect) = False by simp,
      show (PutPoint.afterClear = PutPoint.betweenCollectAndPersist) = False by simp,
      show (PutPoint.afterClear = PutPoint.betweenPersistAndClear) = False by simp,
      if_false, eq_self_iff_true, if_true, or_true]
    split
    · exact mem_put _ id v
    · split <;> exact mem_put _ id v
  · cases p
    · left
      rw [flushWithPut_fst]
      simp [cacheValues, put]
    · right
      simp only [flushWithPut]
      simp only [show (PutPoint.betweenCollectAndPersist = PutPoint.beforeCollect) = False by simp,
        show (PutPoint.betweenCollectAndPersist = PutPoint.betweenPersistAndClear) = False
          by simp,
        show (PutPoint.betweenCollectAndPersist = PutPoint.afterClear) = False by simp,
        if_false, eq_self_iff_true, if_true, or_self, Bool.false_eq_true]
      split
      · exact mem_put _ id v
      · exact mem_put _ id v
    · right
      simp only [flushWithPut]
      simp only [show (PutPoint.betweenPersistAndClear = PutPoint.beforeCollect) = False by simp,
        show (PutPoint.betweenPersistAndClear = PutPoint.betweenCollectAndPersist) = False
          by simp,
        show (PutPoint.betweenPersistAndClear = PutPoint.afterClear) = False by simp,
        if_false, eq_self_iff_true, if_true, true_or, Bool.false_eq_true]
      split
      · exact mem_put _ id v
      · exact mem_put _ id v
    · right
      simp only [flushWithPut]
      simp only [show (PutPoint.afterClear = PutPoint.beforeCollect) = False by simp,
        show (PutPoint.afterClear = PutPoint.betweenCollectAndPersist) = False by simp,
        show (PutPoint.afterClear = PutPoint.betweenPersistAndClear) = False by simp,
        if_false, eq_self_iff_true, if_true, or_true, Bool.false_eq_true]
      split
      · exact mem_put _ id v
      · exact mem_put _ id v

/-- Witness for the amended C4 at a concrete input. -/
theorem claim4_drain_exclusivity_outside_window_witness :
    exConnB ∈ (flushWithPut .beforeCollect true [(str "a", exConnA)] []
        (str "b") exConnB).1 ∨
    (str "b", exConnB) ∈ (flushWithPut .beforeCollect true [(str "a", exConnA)] []
        (str "b") exConnB).2.1 :=
  claim4_drain_exclusivity_outside_window .beforeCollect true [(str "a", exConnA)] []
    (str "b") exConnB (Or.inl rfl)

/-! ## C5, C6: normalization -/

/-- `hasSuffix` agrees with the suffix relation. -/
theorem hasSuffix_iff {h s : Str} : hasSuffix h s = true ↔ s <:+ h := by
  simp [hasSuffix]

/-- `find?` hits a satisfying element placed after a failing block. -/
theorem find?_middle {α : Type} {p : α → Bool} {l1 : List α} (x : α) (l2 : List α)
    (h1 : ∀ y ∈ l1, p y = false) (hx : p x = true) :
    (l1 ++ x :: l2).find? p = some x := by
  rw [find?_append_of_none p l1 _ h1]
  simp [List.find?_cons, hx]

/-- First-match characterization of the whitelist scan. -/
theorem applyWhitelist_char (wl : List Str) (h0 : Str) :
    (applyWhitelist wl h0 = h0 ∧ ∀ s ∈ wl, hasSuffix h0 s = false) ∨
    (∃ l1 s l2, wl = l1 ++ s :: l2 ∧ applyWhitelist wl h0 = s ∧ hasSuffix h0 s = true ∧
      ∀ s' ∈ l1, hasSuffix h0 s' = false) := by
  rcases find?_char (fun s => hasSuffix h0 s) wl with ⟨hn, hall⟩ | ⟨l1, x, l2, hl, hf, hx, hfirst⟩
  · exact Or.inl ⟨by simp [applyWhitelist, hn], hall⟩
  · exact Or.inr ⟨l1, x, l2, hl, by simp [applyWhitelist, hf], hx, hfirst⟩

/-- Normalization leaves the fallback destination field untouched. -/
theorem normalizeConn_remoteDestination (wl : List Str) (c : Connection) :
    (normalizeConn wl c).remoteDestination = c.remoteDestination := by
  simp only [normalizeConn, fillHost]
  split <;> rfl

/-- Updating `host` with its current value is the identity. -/
theorem setHost_eq_self (c : Connection) (x : Str) (h : c.host = x) :
    { c with host := x } = c := by
  rw [← h]

/-- Variant of `setHost_eq_self` with the equation oriented the other way. -/
theorem setHost_of_eq (c : Connection) (x : Str) (h : x = c.host) :
    { c with host := x } = c := by
  rw [h]

/-- **C5 (Normalization definition).**  Normalization fills an empty host from
the fallback destination, then scans the allow-list in order and replaces the
host by the first suffix it ends with (stopping there); hosts matching no
suffix are kept.  The googlevideo scenario evaluates as specified. -/
theorem claim5_normalization_definition :
    (∀ c : Connection, c.host = [] → (fillHost c).host = c.remoteDestination) ∧
    (∀ c : Connection, c.host ≠ [] → (fillHost c).host = c.host) ∧
    (∀ (wl : List Str) (snap : List Connection),
      normalizeConnections wl snap
        = snap.map (fun c => { fillHost c with host := applyWhitelist wl (fillHost c).host })) ∧
    (∀ (wl : List Str) (h0 : Str),
      (applyWhitelist wl h0 = h0 ∧ ∀ s ∈ wl, ¬ (s <:+ h0)) ∨
      (∃ l1 s l2, wl = l1 ++ s :: l2 ∧ applyWhitelist wl h0 = s ∧ s <:+ h0 ∧
        ∀ s' ∈ l1, ¬ (s' <:+ h0))) ∧
    ((normalizeConnections [str "googlevideo.com"]
        [⟨str "i", str "s", str "v22.lscache6.googlevideo.com", str "rd", 1, 2, 3, []⟩]).map
      (fun c => c.host) = [str "googlevideo.com"]) := by
  refine ⟨?_, ?_, ?_, ?_, by decide⟩
  · intro c h
    simp [fillHost, h]
  · intro c h
    simp [fillHost, h]
  · intro wl snap
    rfl
  · intro wl h0
    rcases applyWhitelist_char wl h0 with ⟨he, hall⟩ | ⟨l1, s, l2, hl, he, hx, hfirst⟩
    · refine Or.inl ⟨he, fun s hs => ?_⟩
      have := hall s hs
      simp [hasSuffix_iff.symm, this]
    · refine Or.inr ⟨l1, s, l2, hl, he, hasSuffix_iff.1 hx, fun s' hs' => ?_⟩
      have := hfirst s' hs'
      simp [hasSuffix_iff.symm, this]

/-- Witness for C5 at a concrete input: the empty-host fallback scenario. -/
theorem claim5_normalization_definition_witness :
    (fillHost ⟨str "i", str "s", [], str "1.2.3.4:443", 100, 200, 0, []⟩).host
      = str "1.2.3.4:443" :=
  claim5_normalization_definition.1 ⟨str "i", str "s", [], str "1.2.3.4:443", 100, 200, 0, []⟩ rfl

/-- The record used in the C6 counterexample. -/
def exConnC6 : Connection := ⟨str "i", str "s", str "b", str "a", 0, 0, 0, []⟩

/-- **C6 counterexample.**  With allow-list `["a", ""]` and a record with host
`"b"` and fallback `"a"`, the first normalization collapses the host to `""`
(everything ends with the empty suffix); the second normalization then
re-fills from the fallback and collapses to `"a"` — not a no-op. -/
theorem claim6_counterexample :
    normalizeConnections [str "a", []] (normalizeConnections [str "a", []] [exConnC6])
      ≠ normalizeConnections [str "a", []] [exConnC6] := by
  decide

/-- Idempotence of per-record normalization when the allow-list has no empty
suffix. -/
theorem normalizeConn_idem (wl : List Str) (hwl : [] ∉ wl) (c : Connection) :
    normalizeConn wl (normalizeConn wl c) = normalizeConn wl c := by
  set c1 := normalizeConn wl c with hc1
  have hhost : c1.host = applyWhitelist wl (fillHost c).host := rfl
  rcases applyWhitelist_char wl (fillHost c).host with ⟨he, hall⟩ | ⟨l1, s, l2, hl, he, hx, hfirst⟩
  · -- no suffix matched: the host is the (possibly filled) original
    by_cases h0 : (fillHost c).host = []
    · -- then the original host and the fallback are both empty
      have hch : c.host = [] := by
        by_cases hc : c.host = []
        · exact hc
        · exact absurd (by simpa [fillHost, hc] using h0) hc
      have hrd : c.remoteDestination = [] := by simpa [fillHost, hch] using h0
      have hc1host : c1.host = [] := by rw [hhost, he, h0]
      have hc1rd : c1.remoteDestination = [] := by
        rw [hc1, normalizeConn_remoteDestination]; exact hrd
      have hfill : fillHost c1 = c1 := by
        unfold fillHost
        rw [if_pos hc1host]
        exact setHost_of_eq c1 c1.remoteDestination (by rw [hc1rd, hc1host])
      have hnil : ∀ u ∈ wl, hasSuffix [] u = false := by
        intro u hu
        have hne : u ≠ [] := fun h => hwl (h ▸ hu)
        refine Bool.eq_false_iff.2 (fun ht => ?_)
        exact hne (List.suffix_nil.1 (hasSuffix_iff.1 ht))
      have hnone : applyWhitelist wl c1.host = c1.host := by
        rw [hc1host]
        have hfind : wl.find? (fun u => hasSuffix [] u) = none :=
          List.find?_eq_none.2 (fun u hu => by simp [hnil u hu])
        simp [applyWhitelist, hfind]
      show { fillHost c1 with host := applyWhitelist wl (fillHost c1).host } = c1
      rw [hfill, hnone]
    · have hc1host : c1.host = (fillHost c).host := by rw [hhost, he]
      have hfill : fillHost c1 = c1 := by
        unfold fillHost
        rw [if_neg (by rw [hc1host]; exact h0)]
      have hnone : applyWhitelist wl c1.host = c1.host := by
        rw [hc1host]
        exact he
      show { fillHost c1 with host := applyWhitelist wl (fillHost c1).host } = c1
      rw [hfill, hnone]
  · -- first match `s` replaced the host; `s` matches itself first again
    have hc1host : c1.host = s := by rw [hhost, he]
    have hsmem : s ∈ wl := by rw [hl]; simp
    have hsne : s ≠ [] := fun h => hwl (h ▸ hsmem)
    have hfill : fillHost c1 = c1 := by
      unfold fillHost
      rw [if_neg (by rw [hc1host]; exact hsne)]
    have hself : applyWhitelist wl s = s := by
      have h1 : ∀ y ∈ l1, hasSuffix s y = false := by
        intro y hy
        refine Bool.eq_false_iff.2 (fun ht => ?_)
        have hys : y <:+ s := hasSuffix_iff.1 ht
        have hyh : y <:+ (fillHost c).host := hys.trans (hasSuffix_iff.1 hx)
        have hfy := hfirst y hy
        rw [Bool.eq_false_iff] at hfy
        exact hfy (hasSuffix_iff.2 hyh)
      have hss : hasSuffix s s = true := hasSuffix_iff.2 List.suffix_rfl
      rw [hl]
      simp [applyWhitelist, find?_middle s l2 h1 hss]
    show { fillHost c1 with host := applyWhitelist wl (fillHost c1).host } = c1
    rw [hfill, hc1host, hself]
    exact setHost_eq_self c1 s hc1host

/-- **C6 amended.**  Normalization is idempotent for every snapshot and every
allow-list that does not contain the empty suffix (the counterexample forces
this restriction: an empty suffix collapses hosts to `""`, which the second
pass re-fills from the fallback field). -/
theorem claim6_idempotent_without_empty_suffix (wl : List Str) (snap : List Connection)
    (hwl : [] ∉ wl) :
    normalizeConnections wl (normalizeConnections wl snap) = normalizeConnections wl snap := by
  unfold normalizeConnections
  rw [List.map_map]
  exact List.map_congr_left (fun c _ => normalizeConn_idem wl hwl c)

/-- Witness for the amended C6 at a concrete input. -/
theorem claim6_idempotent_without_empty_suffix_witness :
    normalizeConnections [str "a.com"] (normalizeConnections [str "a.com"] [exConnC6])
      = normalizeConnections [str "a.com"] [exConnC6] :=
  claim6_idempotent_without_empty_suffix [str "a.com"] [exConnC6] (by decide)

/-! ## Merge-engine lemmas -/

/-- Accumulation step on an optional group entry: start the group at the
record, or fold the record into the existing representative. -/
def foldGroup (o : Option Row) (r : Row) : Option Row :=
  match o with
  | some g => some (addUD g r)
  | none => some r

/-- Group keys of the grouping map. -/
def keysOf (gs : List ((Str × Int) × Row)) : List (Str × Int) := gs.map (·.1)

/-- How one grouping step changes a key's entry. -/
theorem findGroup_insertGroup (interval : Int) (gs : List ((Str × Int) × Row)) (r : Row)
    (k : Str × Int) :
    findGroup k (insertGroup interval gs r)
      = if keyOf interval r = k then foldGroup (findGroup k gs) r else findGroup k gs := by
  induction gs with
  | nil =>
    by_cases h : keyOf interval r = k <;>
      simp [insertGroup, findGroup, List.find?_cons, h, foldGroup]
  | cons hd tl ih =>
    obtain ⟨k0, g0⟩ := hd
    by_cases h0 : k0 = keyOf interval r
    · by_cases hk : k0 = k
      · subst hk
        simp [insertGroup, if_pos h0, findGroup, List.find?_cons, ← h0, foldGroup]
      · have hrk : ¬ (keyOf interval r = k) := fun h => hk (h0.trans h)
        simp [insertGroup, if_pos h0, findGroup, List.find?_cons, hk, hrk]
    · by_cases hk : k0 = k
      · subst hk
        have hrk : ¬ (keyOf interval r = k0) := fun h => h0 h.symm
        simp [insertGroup, if_neg h0, findGroup, List.find?_cons, hrk]
      · have := ih
        simp only [insertGroup, if_neg h0, findGroup, List.find?_cons] at *
        simpa [hk] using this

/-- The entry of a key after the whole grouping loop is the fold of the
records carrying that key. -/
theorem findGroup_foldl (interval : Int) (rows : List Row)
    (gs : List ((Str × Int) × Row)) (k : Str × Int) :
    findGroup k (rows.foldl (insertGroup interval) gs)
      = (rows.filter (fun r => keyOf interval r = k)).foldl foldGroup (findGroup k gs) := by
  induction rows generalizing gs with
  | nil => rfl
  | cons r rows ih =>
    simp only [List.foldl_cons]
    rw [ih]
    by_cases h : keyOf interval r = k
    · rw [List.filter_cons_of_pos (by simpa using h), List.foldl_cons,
        findGroup_insertGroup, if_pos h]
    · rw [List.filter_cons_of_neg (by simpa using h),
        findGroup_insertGroup, if_neg h]

/-- Folding onto an existing representative. -/
theorem foldl_foldGroup_some (g : Row) (rs : List Row) :
    rs.foldl foldGroup (some g) = some (rs.foldl addUD g) := by
  induction rs generalizing g with
  | nil => rfl
  | cons r rs ih => simp [foldGroup, ih]

/-- The accumulated representative of a key, over the records carrying it. -/
theorem mergedGroups_findGroup (interval : Int) (rows : List Row) (k : Str × Int) :
    findGroup k (mergedGroups interval rows)
      = match rows.filter (fun r => keyOf interval r = k) with
        | [] => none
        | r :: rs => some (rs.foldl addUD r) := by
  unfold mergedGroups
  rw [findGroup_foldl]
  cases h : rows.filter (fun r => keyOf interval r = k) with
  | nil => rfl
  | cons r rs =>
    have hnil : findGroup k ([] : List ((Str × Int) × Row)) = none := rfl
    rw [hnil]
    simpa [foldGroup] using foldl_foldGroup_some r rs

/-- `addUD` folds touch only the byte totals. -/
theorem foldl_addUD_fields (g : Row) (rs : List Row) :
    (rs.foldl addUD g).id = g.id ∧ (rs.foldl addUD g).sourceIP = g.sourceIP ∧
    (rs.foldl addUD g).host = g.host ∧ (rs.foldl addUD g).start = g.start ∧
    (rs.foldl addUD g).chain = g.chain := by
  induction rs generalizing g with
  | nil => exact ⟨rfl, rfl, rfl, rfl, rfl⟩
  | cons r rs ih => simpa [addUD] using ih (addUD g r)

/-- The accumulated upload is the `uint64` sum of the members' uploads. -/
theorem foldl_addUD_upload (rs : List Row) (g : Row) (hg : g.upload < M64) :
    (rs.foldl addUD g).upload = (g.upload + (rs.map (·.upload)).sum) % M64 := by
  induction rs generalizing g with
  | nil => simpa using (Nat.mod_eq_of_lt hg).symm
  | cons r rs ih =>
    have hM : 0 < M64 := by decide
    have h1 : (addUD g r).upload = (g.upload + r.upload) % M64 := rfl
    have h2 : (addUD g r).upload < M64 := by rw [h1]; exact Nat.mod_lt _ hM
    rw [List.foldl_cons, ih (addUD g r) h2, h1, Nat.mod_add_mod]
    simp [Nat.add_assoc]

/-- The accumulated download is the `uint64` sum of the members' downloads. -/
theorem foldl_addUD_download (rs : List Row) (g : Row) (hg : g.download < M64) :
    (rs.foldl addUD g).download = (g.download + (rs.map (·.download)).sum) % M64 := by
  induction rs generalizing g with
  | nil => simpa using (Nat.mod_eq_of_lt hg).symm
  | cons r rs ih =>
    have hM : 0 < M64 := by decide
    have h1 : (addUD g r).download = (g.download + r.download) % M64 := rfl
    have h2 : (addUD g r).download < M64 := by rw [h1]; exact Nat.mod_lt _ hM
    rw [List.foldl_cons, ih (addUD g r) h2, h1, Nat.mod_add_mod]
    simp [Nat.add_assoc]

/-- Keys after one grouping step. -/
theorem keysOf_insertGroup (interval : Int) (gs : List ((Str × Int) × Row)) (r : Row) :
    keysOf (insertGroup interval gs r)
      = if keyOf interval r ∈ keysOf gs then keysOf gs
        else keysOf gs ++ [keyOf interval r] := by
  induction gs with
  | nil => simp [insertGroup, keysOf]
  | cons hd tl ih =>
    obtain ⟨k0, g0⟩ := hd
    by_cases h0 : k0 = keyOf interval r
    · simp [insertGroup, if_pos h0, keysOf, ← h0]
    · have : ¬ (keyOf interval r = k0) := fun h => h0 h.symm
      simp only [insertGroup, if_neg h0, keysOf, List.map_cons] at ih ⊢
      rw [ih]
      by_cases hm : keyOf interval r ∈ tl.map (·.1) <;> simp [hm, this]

/-- Grouping never duplicates a key. -/
theorem keysOf_foldl_nodup (interval : Int) (rows : List Row)
    (gs : List ((Str × Int) × Row)) (h : (keysOf gs).Nodup) :
    (keysOf (rows.foldl (insertGroup interval) gs)).Nodup := by
  induction rows generalizing gs with
  | nil => exact h
  | cons r rows ih =>
    refine ih (insertGroup interval gs r) ?_
    rw [keysOf_insertGroup]
    by_cases hm : keyOf interval r ∈ keysOf gs
    · simpa [hm] using h
    · simp [hm, List.nodup_append, h]

/-- The grouping keys are exactly the keys occurring in the rows. -/
theorem mem_keysOf_foldl (interval : Int) (rows : List Row)
    (gs : List ((Str × Int) × Row)) (k : Str × Int) :
    k ∈ keysOf (rows.foldl (insertGroup interval) gs)
      ↔ k ∈ keysOf gs ∨ k ∈ rows.map (keyOf interval) := by
  induction rows generalizing gs with
  | nil => simp
  | cons r rows ih =>
    rw [List.foldl_cons, ih, keysOf_insertGroup]
    by_cases hm : keyOf interval r ∈ keysOf gs
    · rw [if_pos hm]
      simp only [List.map_cons, List.mem_cons]
      constructor
      · rintro (h | h)
        · exact Or.inl h
        · exact Or.inr (Or.inr h)
      · rintro (h | h | h)
        · exact Or.inl h
        · exact Or.inl (h.symm ▸ hm)
        · exact Or.inr h
    · rw [if_neg hm]
      simp only [List.mem_append, List.mem_singleton, List.map_cons, List.mem_cons]
      tauto

/-- With distinct keys, membership determines the lookup. -/
theorem findGroup_of_mem (gs : List ((Str × Int) × Row)) (k : Str × Int) (g : Row) :
    (keysOf gs).Nodup → (k, g) ∈ gs → findGroup k gs = some g := by
  induction gs with
  | nil => intro _ h; cases h
  | cons hd tl ih =>
    intro hnd h
    obtain ⟨k0, g0⟩ := hd
    have hnd2 : (k0 :: keysOf tl).Nodup := hnd
    rcases List.mem_cons.1 h with heq | hmem
    · injection heq with h1 h2
      subst h1
      subst h2
      simp [findGroup, List.find?_cons]
    · have hk0 : ¬ (k0 = k) := by
        intro hk
        subst hk
        exact (List.nodup_cons.1 hnd2).1 (List.mem_map_of_mem (·.1) hmem)
      have hrec := ih (List.nodup_cons.1 hnd2).2 hmem
      simp only [findGroup, List.find?_cons] at hrec ⊢
      simpa [hk0] using hrec

/-- Rows surviving the per-id deletes were in the store. -/
theorem deleteByIds_subset (rows : List Row) (store : List Row) (x : Row) :
    x ∈ deleteByIds store rows → x ∈ store := by
  induction rows generalizing store with
  | nil => exact fun h => h
  | cons r rows ih =>
    intro h
    exact List.mem_of_mem_filter (ih (store.filter (fun y => y.id ≠ r.id)) h)

/-- After the delete loop, no surviving row carries a deleted id. -/
theorem deleteByIds_clears (rows : List Row) (store : List Row) (r : Row) (x : Row) :
    r ∈ rows → x ∈ deleteByIds store rows → x.id ≠ r.id := by
  induction rows generalizing store with
  | nil => intro hr; cases hr
  | cons r0 rows ih =>
    intro hr hx
    rcases List.mem_cons.1 hr with rfl | hmem
    · have hx' : x ∈ store.filter (fun y => y.id ≠ r.id) :=
        deleteByIds_subset rows _ x hx
      simpa using List.of_mem_filter hx'
    · exact ih _ hmem hx

/-- Full characterization of a group entry: the representative is the fold of
the rows carrying the key, in scan order, starting from the first of them. -/
theorem mergedGroups_mem_char (interval : Int) (rows : List Row) (k : Str × Int) (g : Row)
    (h : (k, g) ∈ mergedGroups interval rows) :
    ∃ r0 rs, rows.filter (fun r => keyOf interval r = k) = r0 :: rs ∧
      g = rs.foldl addUD r0 ∧ keyOf interval r0 = k ∧
      g.id = r0.id ∧ g.sourceIP = r0.sourceIP ∧ g.host = r0.host ∧
      g.start = r0.start ∧ g.chain = r0.chain := by
  have hnd : (keysOf (mergedGroups interval rows)).Nodup :=
    keysOf_foldl_nodup interval rows [] (by simp [keysOf])
  have hf := findGroup_of_mem _ k g hnd h
  rw [mergedGroups_findGroup] at hf
  cases hfil : rows.filter (fun r => keyOf interval r = k) with
  | nil => rw [hfil] at hf; cases hf
  | cons r0 rs =>
    rw [hfil] at hf
    injection hf with hg
    have hr0 : r0 ∈ rows.filter (fun r => keyOf interval r = k) := by rw [hfil]; simp
    have hk0 : keyOf interval r0 = k := by simpa using List.of_mem_filter hr0
    obtain ⟨h1, h2, h3, h4, h5⟩ := foldl_addUD_fields r0 rs
    exact ⟨r0, rs, rfl, hg.symm, hk0, hg ▸ h1, hg ▸ h2, hg ▸ h3, hg ▸ h4, hg ▸ h5⟩

/-- Every group entry is keyed by its representative's key. -/
theorem mergedGroups_key (interval : Int) (rows : List Row) :
    ∀ kg ∈ mergedGroups interval rows, keyOf interval kg.2 = kg.1 := by
  intro kg hkg
  obtain ⟨k, g⟩ := kg
  rcases mergedGroups_mem_char interval rows k g hkg with
    ⟨r0, rs, hfil, hg, hk0, _, _, hhost, hstart, _⟩
  show keyOf interval g = k
  calc keyOf interval g = keyOf interval r0 := by simp [keyOf, hhost, hstart]
    _ = k := hk0

/-- Membership in the merged-row insert loop. -/
theorem mem_mergedRows (freshIds : Nat → Str) (interval : Int) (rows : List Row) (x : Row)
    (h : x ∈ mergedRows freshIds interval rows) :
    ∃ i k g, i < (mergedGroups interval rows).length ∧ (k, g) ∈ mergedGroups interval rows ∧
      x = { g with id := freshIds i } := by
  rcases List.mem_map.1 h with ⟨ig, hig, hx⟩
  exact ⟨ig.1, ig.2.1, ig.2.2, fst_lt_of_mem_enum hig, snd_mem_of_mem_enum hig, hx.symm⟩

/-- Counting a `Nodup` list's occurrences of an element. -/
theorem countP_eq_ite (l : List (Str × Int)) (k : Str × Int) (h : l.Nodup) :
    l.countP (fun x => x = k) = if k ∈ l then 1 else 0 := by
  induction l with
  | nil => simp
  | cons a l ih =>
    have hnd := List.nodup_cons.1 h
    rw [List.countP_cons]
    by_cases ha : a = k
    · subst ha
      simp [ih hnd.2, hnd.1]
    · have hka : ¬ (k = a) := fun hh => ha hh.symm
      simp [ih hnd.2, ha, hka]

/-- Per-key count of the freshly inserted rows, via the group keys. -/
theorem countP_enumFrom_map (interval : Int) (freshIds : Nat → Str) (k : Str × Int) :
    ∀ groups : List ((Str × Int) × Row), (∀ kg ∈ groups, keyOf interval kg.2 = kg.1) →
      ∀ n, ((groups.enumFrom n).map
          (fun ig => { ig.2.2 with id := freshIds ig.1 })).countP
            (fun x => keyOf interval x = k)
        = (keysOf groups).countP (fun x => x = k) := by
  intro groups
  induction groups with
  | nil => intro _ n; simp [keysOf]
  | cons hd tl ih =>
    intro hkey n
    obtain ⟨k0, g0⟩ := hd
    have hhd : keyOf interval ({ g0 with id := freshIds n } : Row) = k0 :=
      hkey (k0, g0) (by simp)
    simp only [List.enumFrom, List.map_cons, List.countP_cons, keysOf]
    rw [show ((List.map (·.1) tl).countP (fun x => x = k))
        = (keysOf tl).countP (fun x => x = k) from rfl,
      ← ih (fun kg h => hkey kg (by simp [h])) (n + 1)]
    by_cases hk : k0 = k
    · simp [hhd, hk]
    · simp [hhd, hk]

/-- The merged-row insert loop yields exactly one row per distinct key of the
input rows. -/
theorem countP_mergedRows (freshIds : Nat → Str) (interval : Int) (rows : List Row)
    (k : Str × Int) :
    (mergedRows freshIds interval rows).countP (fun x => keyOf interval x = k)
      = if k ∈ rows.map (keyOf interval) then 1 else 0 := by
  have h1 := countP_enumFrom_map interval freshIds k (mergedGroups interval rows)
    (mergedGroups_key interval rows) 0
  have hnd : (keysOf (mergedGroups interval rows)).Nodup :=
    keysOf_foldl_nodup interval rows [] (by simp [keysOf])
  unfold mergedRows
  rw [show (mergedGroups interval rows).enum = (mergedGroups interval rows).enumFrom 0 from rfl,
    h1, countP_eq_ite _ k hnd]
  have hmem : k ∈ keysOf (mergedGroups interval rows) ↔ k ∈ rows.map (keyOf interval) := by
    rw [show mergedGroups interval rows = rows.foldl (insertGroup interval) [] from rfl,
      mem_keysOf_foldl]
    simp [keysOf]
  by_cases hm : k ∈ rows.map (keyOf interval)
  · rw [if_pos (hmem.2 hm), if_pos hm]
  · rw [if_neg (fun h => hm (hmem.1 h)), if_neg hm]

/-- The final-store shape of a merge over a non-empty range. -/
theorem mergeAndArchive_store_eq (freshIds : Nat → Str) (now : Int) (store : List Row)
    (archive : List ArchiveRow) (startDate endDate : Int) (interval : Int)
    (hne : rangeFilter store startDate endDate ≠ []) :
    (mergeAndArchiveConnections freshIds now store archive startDate endDate interval).1
      = deleteByIds store (rangeFilter store startDate endDate)
        ++ mergedRows freshIds interval (rangeFilter store startDate endDate) := by
  unfold mergeAndArchiveConnections
  rw [if_neg hne]

/-- A merge over an empty range is a no-op on the store. -/
theorem mergeAndArchive_store_eq_nil (freshIds : Nat → Str) (now : Int) (store : List Row)
    (archive : List ArchiveRow) (startDate endDate : Int) (interval : Int)
    (he : rangeFilter store startDate endDate = []) :
    (mergeAndArchiveConnections freshIds now store archive startDate endDate interval).1
      = store := by
  unfold mergeAndArchiveConnections
  rw [if_pos he]

/-! ## C2, C9: the merge engine -/

/-- Two rows whose `uint64` uploads sum to exactly `2^64`. -/
def exRowX : Row := ⟨str "x", str "s", str "h", 2 ^ 63, 1, 0, str "c"⟩

/-- Second row of the C2 counterexample. -/
def exRowY : Row := ⟨str "y", str "s", str "h", 2 ^ 63, 1, 0, str "c"⟩

/-- **C2 counterexample.**  The merge accumulates `uint64` totals with Go's
wrapping addition: two group members with `upload = 2^63` each merge to a
record with `upload = 0`, not the exact sum `2^64` — the claim's "exact sum"
fails when the group total reaches `2^64`. -/
theorem claim2_counterexample :
    ((mergeAndArchiveConnections (fun _ => str "n") 999 [exRowX, exRowY] [] 0 0 10).1.map
        (·.upload) = [0]) ∧
    exRowX.upload + exRowY.upload ≠ 0 := by
  exact ⟨by decide, by decide⟩

/-- **C2 amended.**  For a merge over a closed range: (a) no in-range id
survives in the store; (b) among rows whose id was not previously in the store
there is exactly one per distinct `(host, bucket)` key of the range; (c) each
such merged row's totals are the sums of its group members' totals computed in
64-bit unsigned arithmetic, i.e. modulo `2^64` — exact whenever the group
total is below `2^64` (stored values are `uint64`, hence each `< 2^64`). -/
theorem claim2_merge_conservation_mod (freshIds : Nat → Str) (now : Int)
    (store : List Row) (archive : List ArchiveRow) (startDate endDate interval : Int)
    (hb : ∀ r ∈ store, r.upload < M64 ∧ r.download < M64)
    (hfresh : ∀ i, i < (mergedGroups interval (rangeFilter store startDate endDate)).length →
      freshIds i ∉ store.map (·.id)) :
    (∀ r ∈ rangeFilter store startDate endDate,
      ∀ x ∈ (mergeAndArchiveConnections freshIds now store archive startDate endDate interval).1,
        x.id ≠ r.id) ∧
    (∀ k : Str × Int,
      ((mergeAndArchiveConnections freshIds now store archive startDate endDate
          interval).1.filter (fun x => x.id ∉ store.map (·.id))).countP
        (fun x => keyOf interval x = k)
        = if k ∈ (rangeFilter store startDate endDate).map (keyOf interval) then 1 else 0) ∧
    (∀ x ∈ (mergeAndArchiveConnections freshIds now store archive startDate endDate interval).1,
      x.id ∉ store.map (·.id) →
      (x.upload = (((rangeFilter store startDate endDate).filter
          (fun r => keyOf interval r = keyOf interval x)).map (·.upload)).sum % M64 ∧
       x.download = (((rangeFilter store startDate endDate).filter
          (fun r => keyOf interval r = keyOf interval x)).map (·.download)).sum % M64) ∧
      ((((rangeFilter store startDate endDate).filter
          (fun r => keyOf interval r = keyOf interval x)).map (·.upload)).sum < M64 →
        x.upload = (((rangeFilter store startDate endDate).filter
          (fun r => keyOf interval r = keyOf interval x)).map (·.upload)).sum) ∧
      ((((rangeFilter store startDate endDate).filter
          (fun r => keyOf interval r = keyOf interval x)).map (·.download)).sum < M64 →
        x.download = (((rangeFilter store startDate endDate).filter
          (fun r => keyOf interval r = keyOf interval x)).map (·.download)).sum)) := by
  by_cases hTe : rangeFilter store startDate endDate = []
  · refine ⟨?_, ?_, ?_⟩
    · intro r hr
      rw [hTe] at hr
      cases hr
    · intro k
      rw [mergeAndArchive_store_eq_nil _ _ _ _ _ _ _ hTe]
      have h1 : store.filter (fun x => x.id ∉ store.map (·.id)) = [] :=
        List.filter_eq_nil_iff.2 (fun x hx => by
          simpa using List.mem_map_of_mem (·.id) hx)
      rw [h1, hTe]
      simp
    · intro x hx hid
      rw [mergeAndArchive_store_eq_nil _ _ _ _ _ _ _ hTe] at hx
      exact absurd (List.mem_map_of_mem (·.id) hx) hid
  · have hshape := mergeAndArchive_store_eq freshIds now store archive startDate endDate
      interval hTe
    refine ⟨?_, ?_, ?_⟩
    · intro r hr x hx
      rw [hshape] at hx
      rcases List.mem_append.1 hx with hx1 | hx2
      · exact deleteByIds_clears _ _ r x hr hx1
      · rcases mem_mergedRows _ _ _ _ hx2 with ⟨i, k, g, hi, hkg, hxe⟩
        have hxid : x.id = freshIds i := by rw [hxe]
        intro he
        have hr' : r.id ∈ store.map (·.id) :=
          List.mem_map_of_mem _ (List.mem_of_mem_filter hr)
        rw [hxid] at he
        exact hfresh i hi (he.symm ▸ hr')
    · intro k
      rw [hshape, List.filter_append]
      have h1 : (deleteByIds store (rangeFilter store startDate endDate)).filter
          (fun x => x.id ∉ store.map (·.id)) = [] :=
        List.filter_eq_nil_iff.2 (fun x hx => by
          simpa using List.mem_map_of_mem (·.id) (deleteByIds_subset _ _ _ hx))
      have h2 : (mergedRows freshIds interval (rangeFilter store startDate endDate)).filter
          (fun x => x.id ∉ store.map (·.id))
          = mergedRows freshIds interval (rangeFilter store startDate endDate) :=
        List.filter_eq_self.2 (fun x hx => by
          rcases mem_mergedRows _ _ _ _ hx with ⟨i, k', g, hi, hkg, hxe⟩
          have hxid : x.id = freshIds i := by rw [hxe]
          simpa [hxid] using hfresh i hi)
      rw [h1, h2, List.nil_append]
      exact countP_mergedRows freshIds interval _ k
    · intro x hx hid
      rw [hshape] at hx
      rcases List.mem_append.1 hx with hx1 | hx2
      · exact absurd (List.mem_map_of_mem (·.id) (deleteByIds_subset _ _ _ hx1)) hid
      · rcases mem_mergedRows _ _ _ _ hx2 with ⟨i, k, g, hi, hkg, hxe⟩
        rcases mergedGroups_mem_char interval _ k g hkg with
          ⟨r0, rs, hfil, hg, hk0, _, _, hhost, hstart, _⟩
        have hxkey : keyOf interval x = k := by
          rw [hxe]
          exact mergedGroups_key interval _ (k, g) hkg
        have hr0mem : r0 ∈ rangeFilter store startDate endDate := by
          have : r0 ∈ (rangeFilter store startDate endDate).filter
              (fun r => keyOf interval r = k) := by rw [hfil]; simp
          exact List.mem_of_mem_filter this
        have hr0store : r0 ∈ store := List.mem_of_mem_filter hr0mem
        have hsumU : (((rangeFilter store startDate endDate).filter
            (fun r => keyOf interval r = keyOf interval x)).map (·.upload)).sum
            = r0.upload + (rs.map (·.upload)).sum := by
          rw [hxkey, hfil]
          simp
        have hsumD : (((rangeFilter store startDate endDate).filter
            (fun r => keyOf interval r = keyOf interval x)).map (·.download)).sum
            = r0.download + (rs.map (·.download)).sum := by
          rw [hxkey, hfil]
          simp
        have hupl : x.upload = (r0.upload + (rs.map (·.upload)).sum) % M64 := by
          rw [hxe]
          show g.upload = _
          rw [hg]
          exact foldl_addUD_upload rs r0 (hb r0 hr0store).1
        have hdwn : x.download = (r0.download + (rs.map (·.download)).sum) % M64 := by
          rw [hxe]
          show g.download = _
          rw [hg]
          exact foldl_addUD_download rs r0 (hb r0 hr0store).2
        refine ⟨⟨by rw [hupl, hsumU], by rw [hdwn, hsumD]⟩, ?_, ?_⟩
        · intro hlt
          rw [hupl, hsumU, Nat.mod_eq_of_lt (hsumU ▸ hlt)]
        · intro hlt
          rw [hdwn, hsumD, Nat.mod_eq_of_lt (hsumD ▸ hlt)]

/-- The single in-range row of the C9 counterexample and the claim2/claim9
witnesses: it starts 180 s after a 10-minute bucket boundary. -/
def exRow9 : Row := ⟨str "x", str "s", str "a.com", 10, 20, 180, str "c"⟩

/-- The row produced by merging `[exRow9]` with fresh id `"n"`. -/
def exMergedRow : Row := ⟨str "n", str "s", str "a.com", 10, 20, 180, str "c"⟩

/-- Witness for the amended C2 at a concrete input. -/
theorem claim2_merge_conservation_mod_witness :
    ((mergeAndArchiveConnections (fun _ => str "n") 999 [exRow9] [] 0 1000 10).1.filter
        (fun x => x.id ∉ [exRow9].map (·.id))).countP
      (fun x => keyOf 10 x = (str "a.com", 0))
      = if (str "a.com", (0 : Int)) ∈ (rangeFilter [exRow9] 0 1000).map (keyOf 10)
        then 1 else 0 :=
  (claim2_merge_conservation_mod (fun _ => str "n") 999 [exRow9] [] 0 1000 10
    (by decide) (fun i _ => by
      show str "n" ∉ [exRow9].map (·.id)
      decide)).2.1 (str "a.com", 0)

/-- **C9 counterexample.**  Merging the single record starting at `t = 180`
with a 10-minute bucket width writes back a merged record with
`startedAt = 180`, while the bucket's floor timestamp is `0`: the merged
record carries the first member's raw `startedAt`, not the bucket floor. -/
theorem claim9_counterexample :
    ((mergeAndArchiveConnections (fun _ => str "n") 999 [exRow9] [] 0 1000 10).1.map
        (·.start) = [(180 : Int)]) ∧
    bucketStart 10 180 = 0 ∧ (180 : Int) ≠ 0 := by
  exact ⟨by decide, by decide, by decide⟩

/-- **C9 amended.**  The merged summary record's `startedAt` equals the
`startedAt` of its group's first-seen member (the first in-range row with the
group's `(host, bucket)` key, in scan order) — which lies inside the bucket
`[floor, floor + width)` — rather than the bucket's floor timestamp itself. -/
theorem claim9_merged_start_from_first_member (freshIds : Nat → Str) (now : Int)
    (store : List Row) (archive : List ArchiveRow) (startDate endDate interval : Int)
    (hpos : 0 < interval) :
    ∀ x ∈ (mergeAndArchiveConnections freshIds now store archive startDate endDate interval).1,
      x.id ∉ store.map (·.id) →
      (∃ r0 rs, (rangeFilter store startDate endDate).filter
          (fun r => keyOf interval r = keyOf interval x) = r0 :: rs ∧ x.start = r0.start) ∧
      bucketStart interval x.start ≤ x.start ∧
      x.start < bucketStart interval x.start + interval * 60 := by
  intro x hx hid
  by_cases hTe : rangeFilter store startDate endDate = []
  · rw [mergeAndArchive_store_eq_nil _ _ _ _ _ _ _ hTe] at hx
    exact absurd (List.mem_map_of_mem (·.id) hx) hid
  · rw [mergeAndArchive_store_eq _ _ _ _ _ _ _ hTe] at hx
    rcases List.mem_append.1 hx with hx1 | hx2
    · exact absurd (List.mem_map_of_mem (·.id) (deleteByIds_subset _ _ _ hx1)) hid
    · rcases mem_mergedRows _ _ _ _ hx2 with ⟨i, k, g, hi, hkg, hxe⟩
      rcases mergedGroups_mem_char interval _ k g hkg with
        ⟨r0, rs, hfil, hg, hk0, _, _, _, hstart, _⟩
      have hxkey : keyOf interval x = k := by
        rw [hxe]
        exact mergedGroups_key interval _ (k, g) hkg
      have hxs : x.start = r0.start := by
        rw [hxe]
        exact hstart
      refine ⟨⟨r0, rs, by rw [hxkey, hfil], hxs⟩, ?_, ?_⟩
      · have hm : (0 : Int) < interval * 60 := by
          have : (0 : Int) < 60 := by norm_num
          exact mul_pos hpos this
        have h1 : 0 ≤ (x.start + epochAbs) % (interval * 60) :=
          Int.emod_nonneg _ (ne_of_gt hm)
        unfold bucketStart
        rw [if_neg (not_le.2 hpos)]
        omega
      · have hm : (0 : Int) < interval * 60 := by
          have : (0 : Int) < 60 := by norm_num
          exact mul_pos hpos this
        have h2 : (x.start + epochAbs) % (interval * 60) < interval * 60 :=
          Int.emod_lt_of_pos _ hm
        unfold bucketStart
        rw [if_neg (not_le.2 hpos)]
        omega

/-- Witness for the amended C9 at a concrete input. -/
theorem claim9_merged_start_from_first_member_witness :
    (∃ r0 rs, (rangeFilter [exRow9] 0 1000).filter
        (fun r => keyOf 10 r = keyOf 10 exMergedRow) = r0 :: rs ∧
      exMergedRow.start = r0.start) ∧
    bucketStart 10 exMergedRow.start ≤ exMergedRow.start ∧
    exMergedRow.start < bucketStart 10 exMergedRow.start + 10 * 60 :=
  claim9_merged_start_from_first_member (fun _ => str "n") 999 [exRow9] [] 0 1000 10
    (by decide) exMergedRow (by decide) (by decide)

/-! ## C8: the non-empty-host invariant -/

/-- Every row of the store has a non-empty host. -/
def HostsNonempty (store : List Row) : Prop := ∀ r ∈ store, r.host ≠ []

/-- One upsert of a non-empty-host row preserves the invariant. -/
theorem hostsNonempty_upsertRow (store : List Row) (r : Row) (hst : HostsNonempty store)
    (hr : r.host ≠ []) : HostsNonempty (upsertRow store r) := by
  unfold upsertRow
  by_cases h : store.any (fun x => x.id = r.id) = true
  · rw [if_pos h]
    intro y hy
    rcases List.mem_map.1 hy with ⟨x, hx, hxy⟩
    by_cases hid : x.id = r.id
    · rw [← hxy, if_pos hid]
      exact hst x hx
    · rw [← hxy, if_neg hid]
      exact hst x hx
  · rw [if_neg h]
    intro y hy
    rcases List.mem_append.1 hy with hy1 | hy2
    · exact hst y hy1
    · rw [List.mem_singleton.1 hy2]
      exact hr

/-- The batched upsert preserves the invariant (empty-host records are
skipped; others insert or touch only the totals). -/
theorem hostsNonempty_BulkUpsert (conns : List Connection) (store : List Row)
    (hst : HostsNonempty store) : HostsNonempty (BulkUpsertConnections store conns) := by
  induction conns generalizing store with
  | nil => exact hst
  | cons c conns ih =>
    show HostsNonempty (BulkUpsertConnections
      (if c.host = [] then store else upsertRow store (rowOf c)) conns)
    by_cases hc : c.host = []
    · rw [if_pos hc]
      exact ih store hst
    · rw [if_neg hc]
      exact ih _ (hostsNonempty_upsertRow store (rowOf c) hst hc)

/-- **C8 (Non-empty-host invariant).**  Every operation that writes to the
primary store preserves `host ≠ ""`: the batched flush upsert (which silently
discards empty-host records without persisting them), the merge engine's
insertion of merged summaries, and the host-replacement update (whose empty
suffix is rejected before any mutation). -/
theorem claim8_nonempty_host_invariant :
    (∀ (store : List Row) (conns : List Connection), HostsNonempty store →
      HostsNonempty (BulkUpsertConnections store conns)) ∧
    (∀ (store : List Row) (c : Connection), c.host = [] →
      BulkUpsertConnections store [c] = store) ∧
    (∀ (freshIds : Nat → Str) (now : Int) (store : List Row) (archive : List ArchiveRow)
      (startDate endDate interval : Int), HostsNonempty store →
      HostsNonempty (mergeAndArchiveConnections freshIds now store archive
        startDate endDate interval).1) ∧
    (∀ (store : List Row) (suffix : Str), suffix ≠ [] → HostsNonempty store →
      HostsNonempty (replaceHostUpdate store suffix).1) ∧
    (∀ store : List Row, replaceHostHandler store [] = none) := by
  refine ⟨?_, ?_, ?_, ?_, ?_⟩
  · intro store conns hst
    exact hostsNonempty_BulkUpsert conns store hst
  · intro store c hc
    simp [BulkUpsertConnections, hc]
  · intro freshIds now store archive startDate endDate interval hst
    by_cases hTe : rangeFilter store startDate endDate = []
    · rw [mergeAndArchive_store_eq_nil _ _ _ _ _ _ _ hTe]
      exact hst
    · rw [mergeAndArchive_store_eq _ _ _ _ _ _ _ hTe]
      intro x hx
      rcases List.mem_append.1 hx with hx1 | hx2
      · exact hst x (deleteByIds_subset _ _ _ hx1)
      · rcases mem_mergedRows _ _ _ _ hx2 with ⟨i, k, g, hi, hkg, hxe⟩
        rcases mergedGroups_mem_char interval _ k g hkg with
          ⟨r0, rs, hfil, hg, hk0, _, _, hhost, _, _⟩
        have hr0 : r0 ∈ store := by
          have : r0 ∈ (rangeFilter store startDate endDate).filter
              (fun r => keyOf interval r = k) := by rw [hfil]; simp
          exact List.mem_of_mem_filter (List.mem_of_mem_filter this)
        have : x.host = r0.host := by
          rw [hxe]
          exact hhost
        rw [this]
        exact hst r0 hr0
  · intro store suffix hs hst
    intro y hy
    rcases List.mem_map.1 hy with ⟨x, hx, hxy⟩
    by_cases hm : replaceHostMatches suffix x = true
    · rw [← hxy, if_pos hm]
      exact hs
    · rw [← hxy, if_neg hm]
      exact hst x hx
  · intro store
    rfl

/-- Witness for C8 at a concrete input. -/
theorem claim8_nonempty_host_invariant_witness :
    HostsNonempty (BulkUpsertConnections [exRow9]
      [⟨str "a", str "s", str "h", [], 1, 2, 0, []⟩]) :=
  claim8_nonempty_host_invariant.1 [exRow9]
    [⟨str "a", str "s", str "h", [], 1, 2, 0, []⟩]
    (by unfold HostsNonempty; decide)

/-! ## C10: host replacement via SQLite LIKE -/

/-- `true` when the string contains no SQLite LIKE wildcard. -/
def noWildcards (s : Str) : Bool := s.all (fun c => (c != '%') && (c != '_'))

/-- ASCII case folding of a whole string. -/
def foldStr (s : Str) : Str := s.map charFoldAscii

/-- A wildcard-free pattern LIKE-matches exactly the case-insensitively equal
strings. -/
theorem likeMatch_literal (q : Str) : noWildcards q = true →
    ∀ t, likeMatch q t = true ↔ foldStr q = foldStr t := by
  induction q with
  | nil =>
    intro _ t
    cases t <;> simp [likeMatch, foldStr]
  | cons p ps ih =>
    intro hq t
    rw [noWildcards, List.all_cons, Bool.and_eq_true] at hq
    obtain ⟨hp, hps0⟩ := hq
    have hps : noWildcards ps = true := hps0
    rw [Bool.and_eq_true] at hp
    have hp1 : ¬ (p = '%') := by simpa using hp.1
    have hp2 : ¬ (p = '_') := by simpa using hp.2
    cases t with
    | nil => simp [likeMatch, hp1, hp2, foldStr]
    | cons c ts =>
      simp only [likeMatch, if_neg hp1, if_neg hp2, foldStr, List.map_cons,
        List.cons.injEq, Bool.and_eq_true, decide_eq_true_eq]
      constructor
      · rintro ⟨h1, h2⟩
        exact ⟨h1, (ih hps ts).1 h2⟩
      · rintro ⟨h1, h2⟩
        exact ⟨h1, (ih hps ts).2 h2⟩

/-- `%` consumes an arbitrary prefix: the rest must match some suffix. -/
theorem likeMatch_percent (ps : Str) (t : Str) :
    likeMatch ('%' :: ps) t = true ↔ ∃ s, s <:+ t ∧ likeMatch ps s = true := by
  simp [likeMatch, List.any_eq_true, List.mem_tails]

/-- A word is a suffix of a mapped list iff it is the image of a suffix. -/
theorem suffix_map_iff (f : Char → Char) (w t : Str) :
    w <:+ t.map f ↔ ∃ s, s <:+ t ∧ s.map f = w := by
  constructor
  · rintro ⟨u, hu⟩
    rcases List.append_eq_map_iff.1 hu with ⟨t1, t2, ht, h1, h2⟩
    exact ⟨t2, ⟨t1, ht.symm⟩, h2⟩
  · rintro ⟨s, hs, rfl⟩
    exact hs.map f

/-- The pattern `'%.S'`, for wildcard-free `S`, matches exactly the strings
whose ASCII case folding ends with the folding of `'.' :: S`. -/
theorem likeMatch_suffix_pattern (S : Str) (hS : noWildcards S = true) (h : Str) :
    likeMatch ('%' :: '.' :: S) h = true ↔ foldStr ('.' :: S) <:+ foldStr h := by
  have hdotS : noWildcards ('.' :: S) = true := by
    unfold noWildcards at hS ⊢
    rw [List.all_cons, hS]
    decide
  rw [likeMatch_percent]
  constructor
  · rintro ⟨s, hsuf, hm⟩
    have heq := (likeMatch_literal ('.' :: S) hdotS s).1 hm
    rw [heq]
    exact hsuf.map charFoldAscii
  · intro hsuf
    rcases (suffix_map_iff charFoldAscii _ h).1 hsuf with ⟨s, hs, hmap⟩
    exact ⟨s, hs, (likeMatch_literal ('.' :: S) hdotS s).2 hmap.symm⟩

/-- The upper-case row of the C10 counterexample. -/
def exRow10 : Row := ⟨str "x", str "s", str "A.EXAMPLE.COM", 1, 2, 0, str "c"⟩

/-- **C10 counterexample.**  SQLite's `LIKE` is case-insensitive for ASCII, so
`host = "A.EXAMPLE.COM"` matches `'%.example.com'` and is replaced, although
it neither equals `"example.com"` nor ends (string-wise) with
`".example.com"` — refuting "precisely those records whose host equals S or
ends with '.'+S". -/
theorem claim10_counterexample :
    replaceHostHandler [exRow10] (str "example.com")
      = some ([{ exRow10 with host := str "example.com" }], 1) ∧
    hasSuffix exRow10.host ('.' :: str "example.com") = false ∧
    exRow10.host ≠ str "example.com" := by
  exact ⟨by decide, by decide, by decide⟩

/-- **C10 amended.**  For a non-empty suffix `S` without LIKE wildcards, the
replace-host operation sets `host` to `S` for precisely those records whose
host equals `S` exactly, or whose ASCII case folding ends with the folding of
`"." ++ S`; every other record and every other field is unchanged, the
reported count is the number of matching rows, and an empty suffix is
rejected before any store mutation.  (When `S` contains `%` or `_`, SQLite
wildcard semantics apply instead.) -/
theorem claim10_replace_host_semantics (store : List Row) (S : Str)
    (hS : S ≠ []) (hw : noWildcards S = true) :
    (∀ store2 : List Row, replaceHostHandler store2 [] = none) ∧
    (replaceHostHandler store S = some (replaceHostUpdate store S)) ∧
    ((replaceHostUpdate store S).2 = (store.filter (replaceHostMatches S)).length) ∧
    (∀ r : Row, replaceHostMatches S r = true ↔
      (foldStr ('.' :: S) <:+ foldStr r.host ∨ r.host = S)) ∧
    ((replaceHostUpdate store S).1 = store.map (fun r =>
      if foldStr ('.' :: S) <:+ foldStr r.host ∨ r.host = S
      then { r with host := S } else r)) := by
  have hiff : ∀ r : Row, replaceHostMatches S r = true ↔
      (foldStr ('.' :: S) <:+ foldStr r.host ∨ r.host = S) := by
    intro r
    unfold replaceHostMatches
    rw [Bool.or_eq_true, likeMatch_suffix_pattern S hw r.host]
    simp
  refine ⟨fun store2 => rfl, ?_, rfl, hiff, ?_⟩
  · unfold replaceHostHandler
    rw [if_neg hS]
  · unfold replaceHostUpdate
    refine List.map_congr_left (fun r _ => ?_)
    by_cases hm : replaceHostMatches S r = true
    · rw [if_pos hm, if_pos ((hiff r).1 hm)]
    · rw [if_neg hm, if_neg (fun hc => hm ((hiff r).2 hc))]

/-- Witness for the amended C10 at a concrete input. -/
theorem claim10_replace_host_semantics_witness :
    (replaceHostUpdate [exRow10] (str "example.com")).1 = [exRow10].map (fun r =>
      if foldStr ('.' :: str "example.com") <:+ foldStr r.host ∨ r.host = str "example.com"
      then { r with host := str "example.com" } else r) :=
  (claim10_replace_host_semantics [exRow10] (str "example.com")
    (by decide) (by decide)).2.2.2.2

end Infoclash
